import Mathlib

/-!
Verification of the agent-dsl Python runtime (`src/python/agent_dsl/`).

The development shallowly embeds the runtime's data model and operations:

* `Value` models the Python values flowing through the pipeline
  (`None`, booleans, integers, strings, lists, string-keyed dicts).
* `Obs` models an RxPY observable as the deterministic synchronous trace the
  runtime produces: the list of values it emits, followed by either normal
  completion (`terminal = none`) or an error carrying the exception message
  (`terminal = some msg`).  The RxPY combinators used by the runtime
  (`Observable.just`, `throw`, `empty`, `map`, `flat_map`, `catch`, `retry`,
  `timeout`, `merge`, `concat`, `combine_latest`) are third-party library
  primitives, so they are given their documented synchronous semantics here;
  subscription of a source drains it completely before the next source is
  subscribed, which is how RxPY behaves for the cold synchronous observables
  this runtime builds.  Real time is not representable in this model, so
  `timeoutS` never fires (a synchronous stream delivers instantly), and debug
  tracing's print side effects are outside the value model.
* Fallible Python code (functions that can raise) returns `Except String`,
  the error being the exception message; code that only builds observables
  returns `Obs` directly, exactly following which Python functions can raise.
-/

set_option maxHeartbeats 1000000

namespace AgentDsl

/-- Python runtime values. `vNone` is Python `None`. Floats are not needed by
any pipeline construct the runtime manipulates and are omitted. -/
inductive Value where
| vNone : Value
| vBool : Bool → Value
| vInt : Int → Value
| vStr : String → Value
| vList : List Value → Value
| vDict : List (String × Value) → Value

/-- Python truthiness (`if result:`): `None`, `False`, `0`, `""`, `[]`, `{}`
are falsy, everything else truthy. -/
def truthy : Value → Bool
| .vNone => false
| .vBool b => b
| .vInt n => n != 0
| .vStr s => s != ""
| .vList l => !l.isEmpty
| .vDict d => !d.isEmpty

/-- Python `value is None`. -/
def isNoneV : Value → Bool
| .vNone => true
| _ => false

/-- An RxPY observable, modelled as its deterministic synchronous trace:
the emitted values in order, then either completion (`none`) or an error
message (`some e`). -/
structure Obs where
  emits : List Value
  terminal : Option String

/-- Model of `Observable.just(v)`: emit one value and complete. -/
def justS (v : Value) : Obs := ⟨[v], none⟩

/-- Model of `rx.empty()`: emit nothing and complete. -/
def emptyS : Obs := ⟨[], none⟩

/-- Model of `rx.throw(Exception(e))`: fail immediately with message `e`. -/
def throwS (e : String) : Obs := ⟨[], some e⟩

/-- Model of `rx.operators.map(f)`: transform every emission, keep the terminal event. -/
def mapS (f : Value → Value) (s : Obs) : Obs := ⟨s.emits.map f, s.terminal⟩

/-- Helper for `flat_map`: run the inner observables of the source emissions
in order (a synchronous inner observable completes before the next source
value arrives); an inner error aborts the rest, a source terminal event is
delivered after all inners. -/
def flatMapGo (f : Value → Obs) : List Value → Option String → Obs
| [], t => ⟨[], t⟩
| v :: vs, t =>
  let inner := f v
  match inner.terminal with
  | some e => ⟨inner.emits, some e⟩
  | none =>
    let rest := flatMapGo f vs t
    ⟨inner.emits ++ rest.emits, rest.terminal⟩

/-- Model of `rx.operators.flat_map(f)`. -/
def flatMapS (f : Value → Obs) (s : Obs) : Obs := flatMapGo f s.emits s.terminal

/-- Model of `rx.operators.catch(h)`: on error, switch to the handler's observable. -/
def catchS (s : Obs) (h : String → Obs) : Obs :=
  match s.terminal with
  | none => s
  | some e => ⟨s.emits ++ (h e).emits, (h e).terminal⟩

/-- Model of `rx.operators.retry(n)`: up to `n` subscriptions; the source trace is
deterministic, so a failing source replays its emissions `n` times and then
delivers the error, and a successful source is passed through. -/
def retryS (retry_count : Nat) (s : Obs) : Obs :=
  match s.terminal with
  | none => s
  | some e => ⟨(List.replicate retry_count s.emits).flatten, some e⟩

/-- Model of `rx.operators.timeout(d)`: a synchronous source delivers all its events
immediately, so the bound never fires in this model; real time is not
representable in the embedding. -/
def timeoutS (_timeout_ms : Nat) (s : Obs) : Obs := s

/-- Model of `rx.concat(*sources)`: drain each source in order; an error stops the
later sources. -/
def concatS : List Obs → Obs
| [] => ⟨[], none⟩
| s :: rest =>
  match s.terminal with
  | some e => ⟨s.emits, some e⟩
  | none =>
    let r := concatS rest
    ⟨s.emits ++ r.emits, r.terminal⟩

/-- Model of `rx.merge(*sources)`: sources are subscribed in order and each cold
synchronous source drains completely during its subscription, so in this
deterministic model the interleaving coincides with `concat` (the operator
itself guarantees no cross-source order). -/
def mergeS (sources : List Obs) : Obs := concatS sources

/-- Prepend a component to a `combine_latest` tuple (tuples are modelled as
`vList`). The non-list fallback is unreachable: the recursion below only maps
over tuples it built itself. -/
def tupleCons (a : Value) : Value → Value
| .vList l => .vList (a :: l)
| v => .vList [a, v]

/-- Model of `rx.combine_latest(*sources)` for the synchronous traces this runtime
builds: sources are subscribed in order and drain completely, so a combined
tuple appears for each emission of the last source once every earlier source
has a latest value; an earlier source failing prevents the later sources from
being subscribed. -/
def combineLatestList : List Obs → Obs
| [] => ⟨[], none⟩
| [s] => ⟨s.emits.map (fun v => .vList [v]), s.terminal⟩
| s :: rest =>
  match s.terminal with
  | some e => ⟨[], some e⟩
  | none =>
    match s.emits.getLast? with
    | none => ⟨[], (combineLatestList rest).terminal⟩
    | some a =>
      let r := combineLatestList rest
      ⟨r.emits.map (tupleCons a), r.terminal⟩

/-! ## The IR data model (`agent_dsl/types.py`) -/

/-- Model of `IRType` (the declared value types; never inspected by the runtime). -/
inductive IRType where
| string | number | boolean | object | array | any

/-- Model of `SourceLocation`. -/
structure SourceLocation where
  line : Nat
  column : Nat
  file : Option String

/-- Model of `OperatorType` (the full enum from `types.py`). -/
inductive OperatorType where
| map | flatMap | filter | zip | merge | concat | switchMap | debounce
| throttle | onError | retry | timeout | tool | runShell | callApi
| useMCP | readFile | writeFile
deriving DecidableEq

/-- The textual rendering a Python f-string gives an `OperatorType` member
(`f"{op.operator}"` on the `(str, Enum)` class). -/
def operatorRepr : OperatorType → String
| .map => "OperatorType.MAP"
| .flatMap => "OperatorType.FLAT_MAP"
| .filter => "OperatorType.FILTER"
| .zip => "OperatorType.ZIP"
| .merge => "OperatorType.MERGE"
| .concat => "OperatorType.CONCAT"
| .switchMap => "OperatorType.SWITCH_MAP"
| .debounce => "OperatorType.DEBOUNCE"
| .throttle => "OperatorType.THROTTLE"
| .onError => "OperatorType.ON_ERROR"
| .retry => "OperatorType.RETRY"
| .timeout => "OperatorType.TIMEOUT"
| .tool => "OperatorType.TOOL"
| .runShell => "OperatorType.RUN_SHELL"
| .callApi => "OperatorType.CALL_API"
| .useMCP => "OperatorType.USE_MCP"
| .readFile => "OperatorType.READ_FILE"
| .writeFile => "OperatorType.WRITE_FILE"

/-- Model of `IRExpression`, the tagged union over the seven variants of `types.py`.
Each constructor carries the node `id`; `location` fields are omitted because
the runtime never reads them. The Lean keyword `variable` forces the
`IRVariable` constructor to be named `var`. -/
inductive IRExpression where
| literal (id : String) (value_type : IRType) (value : Value)
| var (id : String) (name : String) (value_type : IRType)
| operation (id : String) (operator : OperatorType) (inputs : List IRExpression)
    (output_type : IRType)
| tool (id : String) (tool_name : String) (config : List (String × Value))
    (input_type : IRType) (output_type : IRType)
| conditional (id : String) (condition : IRExpression) (then_branch : IRExpression)
    (else_branch : Option IRExpression) (output_type : IRType)
| loop (id : String) (iterable : IRExpression) (variable_name : String)
    (body : IRExpression) (output_type : IRType)
| function (id : String) (name : String) (body : IRExpression) (return_type : IRType)

/-- Model of `IRStep`. -/
structure IRStep where
  name : String
  expression : IRExpression
  dependencies : List String

/-- Model of `IRInput` (`default_value` defaults to Python `None`, i.e. `vNone`). -/
structure IRInput where
  name : String
  type : IRType
  optional : Bool
  default_value : Value

/-- Model of `IROutput`. -/
structure IROutput where
  name : String
  step_name : String
  type : IRType

/-- Model of `IRPipelineMetadata`. -/
structure IRPipelineMetadata where
  version : Option String
  description : Option String
  author : Option String
  tags : List String

/-- Model of `IRPipeline`. -/
structure IRPipeline where
  name : Option String
  inputs : List IRInput
  steps : List IRStep
  outputs : List IROutput
  metadata : Option IRPipelineMetadata

/-! ## Dictionaries (Python `dict` as insertion-ordered association lists) -/

/-- Model of `d.get(k)` on a Python dict. -/
def lookupD {α : Type} (l : List (String × α)) (k : String) : Option α :=
  (l.find? (fun p => p.1 == k)).map (fun p => p.2)

/-- Model of `d[k] = v` on a Python dict: overwrite in place (keeping the original
position) when the key exists, otherwise append. -/
def dictInsert {α : Type} (l : List (String × α)) (k : String) (v : α) :
    List (String × α) :=
  if (lookupD l k).isSome then
    l.map (fun p => if p.1 == k then (k, v) else p)
  else
    l ++ [(k, v)]

/-- Remove every entry with the given key (used only to state that supplying
a key is equivalent to not supplying it). -/
def eraseKey {α : Type} (l : List (String × α)) (k : String) : List (String × α) :=
  l.filter (fun p => !(p.1 == k))

/-! ## Tool registry (`agent_dsl/tools.py`) -/

/-- A registered tool: an asynchronous invocation function receiving the
upstream value and the config mapping and returning an observable. -/
def ToolFn := Value → List (String × Value) → Obs

/-- Model of `ToolRegistry._tools`, as the insertion-ordered mapping it wraps;
`register` overwrites by key and `get` looks up. -/
def ToolRegistry := List (String × ToolFn)

/-- Model of `ToolRegistry.get`. -/
def registryGet (reg : ToolRegistry) (name : String) : Option ToolFn :=
  lookupD reg name

/-! ## Runtime (`agent_dsl/runtime.py`) -/

/-- Model of `RuntimeContext`. The Python field `variables` collides with a Lean
keyword, so it is named `vars` here. -/
structure RuntimeContext where
  vars : List (String × Obs)
  steps : List (String × Obs)
  tools : ToolRegistry

/-- Model of `ExecutionOptions` (`timeout_ms=None, retries=0, debug=False`). -/
structure ExecutionOptions where
  timeout_ms : Option Nat
  retries : Nat
  debug : Bool

/-- Model of `RuntimeContext(tools)` as built at the start of `RxPyRuntime.compile`. -/
def initContext (tools : ToolRegistry) : RuntimeContext := ⟨[], [], tools⟩

/-- Model of `RxPyRuntime._apply_function`: subscribe to the function stream and
replace whatever it emits with the original input value
(`fn_expr.pipe(map(lambda _: input_value))`). -/
def apply_function (fn_expr : Obs) (input_value : Value) : Obs :=
  mapS (fun _ => input_value) fn_expr

/-- Model of `RxPyRuntime._compile_tool`: look the tool up in the registry, failing
stream when unknown, otherwise `tool_fn(None, tool.config)`. -/
def compile_tool (tool_name : String) (config : List (String × Value))
    (context : RuntimeContext) : Obs :=
  match registryGet context.tools tool_name with
  | none => throwS ("Unknown tool: " ++ tool_name)
  | some tool_fn => tool_fn .vNone config

/-- The operator dispatch of `RxPyRuntime._compile_operation`, applied to the
already-compiled input streams. Arity violations of `map`, `flatMap`,
`filter`, `zip` and `onError` return failing streams; `retry` and `timeout`
index `inputs[0]` without a length check, so an empty input list raises a
Python `IndexError` (message "list index out of range"), which is the only
way this function itself raises. -/
def compile_operation (operator : OperatorType) (inputs : List Obs) :
    Except String Obs :=
  match operator with
  | .map =>
    match inputs with
    | [a, f] => .ok (flatMapS (fun value => apply_function f value) a)
    | _ => .ok (throwS ("map requires exactly 2 inputs"))
  | .flatMap =>
    match inputs with
    | [a, f] => .ok (flatMapS (fun value => apply_function f value) a)
    | _ => .ok (throwS ("flatMap requires exactly 2 inputs"))
  | .filter =>
    match inputs with
    | [a, f] =>
      .ok (flatMapS (fun value =>
        flatMapS (fun result => if truthy result then justS value else emptyS)
          (apply_function f value)) a)
    | _ => .ok (throwS ("filter requires exactly 2 inputs"))
  | .zip =>
    match inputs with
    | [a, b] => .ok (combineLatestList [a, b])
    | _ => .ok (throwS ("zip requires exactly 2 inputs"))
  | .merge => .ok (mergeS inputs)
  | .concat => .ok (concatS inputs)
  | .onError =>
    match inputs with
    | [a, f] => .ok (catchS a (fun error => apply_function f (.vStr error)))
    | _ => .ok (throwS ("onError requires exactly 2 inputs"))
  | .retry =>
    match inputs with
    | a :: _ => .ok (retryS 3 a)
    | [] => .error ("list index out of range")
  | .timeout =>
    match inputs with
    | a :: _ => .ok (timeoutS 5000 a)
    | [] => .error ("list index out of range")
  | op => .ok (throwS ("Unknown operator: " ++ operatorRepr op))

mutual

/-- Model of `RxPyRuntime._compile_expression`. A variable is looked up with
`context.variables.get(name) or context.steps.get(name)` (observables are
always truthy, so Python's `or` is `Option.orElse` here); unknown variables,
unknown tools and the unsupported variants become failing streams, never
raised exceptions. -/
def compile_expression : IRExpression → RuntimeContext → Except String Obs
| .literal _ _ value, _ => .ok (justS value)
| .var _ name _, context =>
  match (lookupD context.vars name).orElse (fun _ => lookupD context.steps name) with
  | some observable => .ok observable
  | none => .ok (throwS ("Unknown variable: " ++ name))
| .operation _ operator inputs _, context =>
  match compile_expr_list inputs context with
  | .error e => .error e
  | .ok compiled => compile_operation operator compiled
| .tool _ tool_name config _ _, context => .ok (compile_tool tool_name config context)
| .conditional _ _ _ _ _, _ => .ok (throwS ("Unknown expression type: conditional"))
| .loop _ _ _ _ _, _ => .ok (throwS ("Unknown expression type: loop"))
| .function _ _ _ _, _ => .ok (throwS ("Unknown expression type: function"))

/-- The list comprehension
`[self._compile_expression(e, context) for e in op.inputs]`, left to right,
propagating a raised exception. -/
def compile_expr_list : List IRExpression → RuntimeContext → Except String (List Obs)
| [], _ => .ok []
| e :: es, context =>
  match compile_expression e context with
  | .error err => .error err
  | .ok o =>
    match compile_expr_list es context with
    | .error err => .error err
    | .ok rest => .ok (o :: rest)

end

/-! ## Dependency resolver (`RxPyRuntime._topological_sort`) -/

/-- The mutable `visited`/`result` pair of the Python closure. The `visiting`
set is not part of this state because every return path of `visit` restores
it (the name pushed on entry is popped before returning), so it is threaded
as a plain argument below. -/
structure TopoState where
  visited : List String
  result : List IRStep

/-- Model of `step_map.get(name)` where
`step_map = {step.name: step for step in steps}`; a dict comprehension keeps
the last binding of a duplicated key, hence the search over the reversed
list. -/
def step_map_get (steps : List IRStep) (name : String) : Option IRStep :=
  steps.reverse.find? (fun s => s.name == name)

theorem step_map_get_eq (steps : List IRStep) (name : String) (s : IRStep)
    (h : step_map_get steps name = some s) : s ∈ steps ∧ s.name = name := by
  unfold step_map_get at h
  refine ⟨List.mem_reverse.mp (List.mem_of_find?_eq_some h), ?_⟩
  have := List.find?_some h
  simpa using this

theorem step_map_get_isSome_of_mem (steps : List IRStep) (s : IRStep)
    (h : s ∈ steps) : (step_map_get steps s.name).isSome := by
  unfold step_map_get
  rw [List.find?_isSome]
  exact ⟨s, List.mem_reverse.mpr h, by simp⟩

/-- Termination measure of the traversal: how many declared step names are
not yet on the `visiting` stack. -/
def freeCount (steps : List IRStep) (visiting : List String) : Nat :=
  ((steps.map (fun s => s.name)).filter (fun n => decide (n ∉ visiting))).length

theorem filter_impl_length_le {α : Type} (p q : α → Bool)
    (h : ∀ x, p x = true → q x = true) :
    ∀ l : List α, (l.filter p).length ≤ (l.filter q).length := by
  intro l
  induction l with
  | nil => simp
  | cons x xs ih =>
    by_cases hp : p x = true
    · rw [List.filter_cons_of_pos hp, List.filter_cons_of_pos (h x hp)]
      simpa using ih
    · rw [List.filter_cons_of_neg (by simpa using hp)]
      by_cases hq : q x = true
      · rw [List.filter_cons_of_pos hq]
        exact le_trans ih (by simp)
      · rw [List.filter_cons_of_neg (by simpa using hq)]
        exact ih

theorem freeCount_push_lt (steps : List IRStep) (visiting : List String)
    (name : String) (hmem : name ∈ steps.map (fun s => s.name))
    (hnotin : name ∉ visiting) :
    freeCount steps (name :: visiting) < freeCount steps visiting := by
  unfold freeCount
  generalize steps.map (fun s => s.name) = ns at hmem ⊢
  induction ns with
  | nil => simp at hmem
  | cons x xs ih =>
    have hle : (xs.filter (fun n => decide (n ∉ name :: visiting))).length ≤
        (xs.filter (fun n => decide (n ∉ visiting))).length := by
      apply filter_impl_length_le
      intro y hy
      simp only [decide_eq_true_eq, List.mem_cons, not_or] at hy ⊢
      exact hy.2
    by_cases hx : x = name
    · subst hx
      rw [List.filter_cons_of_neg (by simp), List.filter_cons_of_pos (by simpa using hnotin)]
      simpa using Nat.lt_succ_of_le hle
    · have hmem' : name ∈ xs := by
        rcases List.mem_cons.mp hmem with h | h
        · exact absurd h.symm hx
        · exact h
      have ihx := ih hmem'
      by_cases hxv : x ∈ visiting
      · rw [List.filter_cons_of_neg (by simp; exact fun _ => hxv),
          List.filter_cons_of_neg (by simpa using hxv)]
        exact ihx
      · rw [List.filter_cons_of_pos (by simp [hxv, hx]),
          List.filter_cons_of_pos (by simpa using hxv)]
        simpa using ihx

mutual

/-- The inner `visit(step_name)` closure of `_topological_sort`. Already
visited names return unchanged; a name already on the `visiting` stack raises
the circular-dependency exception; an unknown name is silently skipped; a
found step first visits all its dependencies with itself pushed on
`visiting`, then is appended to `result` and marked visited. -/
def visit (steps : List IRStep) (visiting : List String) (st : TopoState)
    (name : String) : Except String TopoState :=
  if name ∈ st.visited then .ok st
  else if name ∈ visiting then .error ("Circular dependency detected: " ++ name)
  else
    match hfind : step_map_get steps name with
    | none => .ok st
    | some step =>
      match visit_deps steps (name :: visiting) st step.dependencies with
      | .error e => .error e
      | .ok st' => .ok ⟨name :: st'.visited, st'.result ++ [step]⟩
termination_by (freeCount steps visiting, 0)
decreasing_by
exact Prod.Lex.left _ _ (freeCount_push_lt steps visiting name
  ((step_map_get_eq steps name step hfind).2 ▸
    List.mem_map_of_mem (fun s => s.name) (step_map_get_eq steps name step hfind).1)
  (by assumption))

/-- The `for dep in step.dependencies: visit(dep)` loop (also used for the
top-level `for step in steps: visit(step.name)` loop, which is the same
sequence of calls with an empty `visiting` stack). -/
def visit_deps (steps : List IRStep) (visiting : List String) (st : TopoState) :
    List String → Except String TopoState
| [] => .ok st
| d :: ds =>
  match visit steps visiting st d with
  | .error e => .error e
  | .ok st' => visit_deps steps visiting st' ds
termination_by ds => (freeCount steps visiting, ds.length + 1)
decreasing_by
· exact Prod.Lex.right _ (by omega)
· exact Prod.Lex.right _ (by simp only [List.length_cons]; omega)

end

/-- Model of `RxPyRuntime._topological_sort`. -/
def topological_sort (steps : List IRStep) : Except String (List IRStep) :=
  match visit_deps steps [] ⟨[], []⟩ (steps.map (fun s => s.name)) with
  | .error e => .error e
  | .ok st => .ok st.result

/-! ## Pipeline compilation and execution -/

/-- Model of `CompiledPipeline` (pipeline, `step_observables` dict, context). -/
structure CompiledPipeline where
  pipeline : IRPipeline
  step_observables : List (String × Obs)
  context : RuntimeContext

/-- The `for step in sorted_steps:` loop of `RxPyRuntime.compile`: compile
each step's expression against the growing context, recording the observable
in both `step_observables` and `context.steps`. -/
def compile_steps_loop (sorted_steps : List IRStep)
    (step_observables : List (String × Obs)) (context : RuntimeContext) :
    Except String (List (String × Obs) × RuntimeContext) :=
  match sorted_steps with
  | [] => .ok (step_observables, context)
  | step :: rest =>
    match compile_expression step.expression context with
    | .error e => .error e
    | .ok observable =>
      compile_steps_loop rest (dictInsert step_observables step.name observable)
        { context with steps := dictInsert context.steps step.name observable }

/-- Model of `RxPyRuntime.compile`: fresh context, topological sort (a raised
circular-dependency exception aborts everything), then per-step expression
compilation. -/
def compile (tools : ToolRegistry) (pipeline : IRPipeline) :
    Except String CompiledPipeline :=
  let context := initContext tools
  match topological_sort pipeline.steps with
  | .error e => .error e
  | .ok sorted_steps =>
    match compile_steps_loop sorted_steps [] context with
    | .error e => .error e
    | .ok (step_observables, context') => .ok ⟨pipeline, step_observables, context'⟩

/-- Model of `CompiledPipeline.get_step`. -/
def get_step (cp : CompiledPipeline) (step_name : String) : Option Obs :=
  lookupD cp.step_observables step_name

/-- Model of `CompiledPipeline.get_step_names`. -/
def get_step_names (cp : CompiledPipeline) : List String :=
  cp.step_observables.map (fun p => p.1)

/-- The per-input binding of `CompiledPipeline.run`:
`value = inputs.get(input_def.name, input_def.default_value)` (a key stored
with value `None` yields `None`, not the default), raise
`Required input missing` when the value is `None` and the input is not
optional, else bind `Observable.just(value)`. Returns the bound
`context.variables` entries. -/
def bind_inputs (input_defs : List IRInput) (inputs : List (String × Value)) :
    Except String (List (String × Obs)) :=
  match input_defs with
  | [] => .ok []
  | input_def :: rest =>
    let value := (lookupD inputs input_def.name).getD input_def.default_value
    if isNoneV value && !input_def.optional then
      .error ("Required input missing: " ++ input_def.name)
    else
      match bind_inputs rest inputs with
      | .error e => .error e
      | .ok bound => .ok ((input_def.name, justS value) :: bound)

/-- The output-collection loop of `CompiledPipeline.run`: each declared
output takes its step's observable (raising when the step is unknown) and
tags every emission as the singleton mapping `{output_name: value}`. -/
def collect_outputs (output_defs : List IROutput)
    (step_observables : List (String × Obs)) : Except String (List Obs) :=
  match output_defs with
  | [] => .ok []
  | output_def :: rest =>
    match lookupD step_observables output_def.step_name with
    | none => .error ("Output references unknown step: " ++ output_def.step_name)
    | some step_observable =>
      match collect_outputs rest step_observables with
      | .error e => .error e
      | .ok others =>
        .ok (mapS (fun value => .vDict [(output_def.name, value)]) step_observable :: others)

/-- The dict comprehension
`{k: v for output in outputs for k, v in output.items()}` applied to a
`combine_latest` tuple of singleton mappings: merge them left to right with
later keys overwriting. The tuple elements are always dicts by construction;
a non-dict component is skipped (unreachable). -/
def merge_outputs : Value → Value
| .vList items =>
  .vDict (items.foldl (fun acc item =>
    match item with
    | .vDict entries => entries.foldl (fun a p => dictInsert a p.1 p.2) acc
    | _ => acc) [])
| v => v

/-- Model of `_debug_log` only prints: `map(lambda v: debug_log(...) or v)` re-emits
the value unchanged (`_debug_log` returns `None`, which is falsy) and
`catch(lambda e: debug_log(...) or throw(e))` re-raises the same error, so at
the value level the debug wrapper is the identity. -/
def debug_wrap (s : Obs) : Obs := s

/-- The execution-option wrapping at the end of `CompiledPipeline.run`:
`if options.timeout_ms:` (Python truthiness, so `None` and `0` both skip),
`if options.retries > 0:`, `if options.debug:`. -/
def apply_options (options : ExecutionOptions) (result : Obs) : Obs :=
  let r1 := match options.timeout_ms with
    | some t => if t != 0 then timeoutS t result else result
    | none => result
  let r2 := if options.retries > 0 then retryS options.retries r1 else r1
  if options.debug then debug_wrap r2 else r2

/-- Model of `CompiledPipeline.run`: bind inputs (raising on a missing required
input, before any output is touched), collect the declared outputs, return
`Observable.just({})` when there are none (note: before the execution
options are applied), otherwise `combine_latest` all tagged outputs, merge
each combined tuple into one mapping, and apply the execution options. -/
def run (cp : CompiledPipeline) (inputs : List (String × Value))
    (options : ExecutionOptions) : Except String Obs :=
  match bind_inputs cp.pipeline.inputs inputs with
  | .error e => .error e
  | .ok _bound =>
    match collect_outputs cp.pipeline.outputs cp.step_observables with
    | .error e => .error e
    | .ok output_observables =>
      if output_observables.isEmpty then
        .ok (justS (.vDict []))
      else
        .ok (apply_options options (mapS merge_outputs (combineLatestList output_observables)))

/-! ## The step dependency graph -/

/-- Name `a` depends on name `b`: the step that `a` resolves to lists `b` in its
dependency list. -/
def edge (steps : List IRStep) (a b : String) : Prop :=
  ∃ s, step_map_get steps a = some s ∧ b ∈ s.dependencies

/-- A dependency path from `a` to `b` through the intermediate names `l`. -/
def isPath (steps : List IRStep) (a : String) (l : List String) (b : String) : Prop :=
  match l with
  | [] => edge steps a b
  | x :: xs => edge steps a x ∧ isPath steps x xs b

/-- The pipeline's step dependency graph has a cycle. -/
def hasCycle (steps : List IRStep) : Prop := ∃ a l, isPath steps a l a

/-- The `visiting` stack (most recent first) is a chain of dependency edges:
each entry has an edge to the entry pushed after it, and the top entry has an
edge to the name now being visited. -/
def linkOK (steps : List IRStep) : List String → String → Prop
| [], _ => True
| h :: t, n => edge steps h n ∧ linkOK steps t h

/-- The ordering contract of the resolver: each step of `r` has all its
resolvable dependencies strictly earlier in `r`. -/
def Ordered (steps : List IRStep) (r : List IRStep) : Prop :=
  ∀ i, (h : i < r.length) → ∀ d ∈ (r.get ⟨i, h⟩).dependencies,
    (step_map_get steps d).isSome → d ∈ (r.take i).map (fun s => s.name)

theorem isPath_append_edge (steps : List IRStep) :
    ∀ (l : List String) (a b c : String), isPath steps a l b → edge steps b c →
      isPath steps a (l ++ [b]) c := by
  intro l
  induction l with
  | nil =>
    intro a b c hp he
    exact ⟨hp, he⟩
  | cons x xs ih =>
    intro a b c hp he
    exact ⟨hp.1, ih x b c hp.2 he⟩

theorem linkOK_chain (steps : List IRStep) :
    ∀ (A : List String) (n : String) (B : List String) (m : String),
      linkOK steps (A ++ n :: B) m → isPath steps n A.reverse m := by
  intro A
  induction A with
  | nil =>
    intro n B m h
    exact h.1
  | cons a A' ih =>
    intro n B m h
    have h1 : edge steps a m := h.1
    have h2 : isPath steps n A'.reverse a := ih n B a h.2
    simpa using isPath_append_edge steps A'.reverse n a m h2 h1

theorem linkOK_cycle (steps : List IRStep) (visiting : List String) (name : String)
    (hl : linkOK steps visiting name) (hmem : name ∈ visiting) :
    hasCycle steps := by
  obtain ⟨A, B, rfl⟩ := List.append_of_mem hmem
  exact ⟨name, A.reverse, linkOK_chain steps A name B name hl⟩

/-- The invariant of the `visited`/`result` state maintained by the
traversal. -/
def TopoInv (steps : List IRStep) (st : TopoState) : Prop :=
  (∀ n, n ∈ st.visited ↔ n ∈ st.result.map (fun s => s.name)) ∧
  (st.result.map (fun s => s.name)).Nodup ∧
  (∀ s ∈ st.result, step_map_get steps s.name = some s) ∧
  Ordered steps st.result

theorem ordered_append (steps : List IRStep) (r : List IRStep) (x : IRStep)
    (hr : Ordered steps r)
    (hx : ∀ d ∈ x.dependencies, (step_map_get steps d).isSome →
      d ∈ r.map (fun s => s.name)) :
    Ordered steps (r ++ [x]) := by
  intro i h d hd hsome
  rcases Nat.lt_or_ge i r.length with hi | hi
  · have hget : (r ++ [x]).get ⟨i, h⟩ = r.get ⟨i, hi⟩ := by
      simp [List.getElem_append_left hi]
    rw [hget] at hd
    have := hr i hi d hd hsome
    rwa [List.take_append_of_le_length (le_of_lt hi)]
  · have hieq : i = r.length := by
      have : i < r.length + 1 := by simpa using h
      omega
    subst hieq
    have hget : (r ++ [x]).get ⟨r.length, h⟩ = x := by
      simp
    rw [hget] at hd
    have := hx d hd hsome
    rwa [List.take_append_of_le_length (le_refl _), List.take_length]

/-- Everything one `visit` call guarantees. On success: the invariant is
preserved, `result` only grows, `visited` only grows, every newly visited
name is off the current `visiting` stack, and a resolvable `name` ends up
visited. On failure, provided `visiting` is a dependency chain into `name`:
the error is the circular-dependency message and the graph has a cycle. -/
def VisitPost (steps : List IRStep) (visiting : List String) (st : TopoState)
    (name : String) : Except String TopoState → Prop
| .ok st' => TopoInv steps st →
    (TopoInv steps st' ∧ (∃ t, st'.result = st.result ++ t) ∧
     (∀ n ∈ st.visited, n ∈ st'.visited) ∧
     (∀ n ∈ st'.visited, n ∈ st.visited ∨ n ∉ visiting) ∧
     ((step_map_get steps name).isSome → name ∈ st'.visited))
| .error e => linkOK steps visiting name →
    ((∃ n, e = "Circular dependency detected: " ++ n) ∧ hasCycle steps)

/-- The same guarantees for a whole dependency loop. -/
def DepsPost (steps : List IRStep) (visiting : List String) (st : TopoState)
    (ds : List String) : Except String TopoState → Prop
| .ok st' => TopoInv steps st →
    (TopoInv steps st' ∧ (∃ t, st'.result = st.result ++ t) ∧
     (∀ n ∈ st.visited, n ∈ st'.visited) ∧
     (∀ n ∈ st'.visited, n ∈ st.visited ∨ n ∉ visiting) ∧
     (∀ d ∈ ds, (step_map_get steps d).isSome → d ∈ st'.visited))
| .error e => (∀ d ∈ ds, linkOK steps visiting d) →
    ((∃ n, e = "Circular dependency detected: " ++ n) ∧ hasCycle steps)

theorem visit_post (steps : List IRStep) :
    ∀ (k : Nat) (visiting : List String), freeCount steps visiting ≤ k →
      (∀ st name, VisitPost steps visiting st name (visit steps visiting st name)) ∧
      (∀ st ds, DepsPost steps visiting st ds (visit_deps steps visiting st ds)) := by
  intro k
  induction k using Nat.strong_induction_on with
  | _ k IH =>
  intro visiting hk
  have hvisit : ∀ st name, VisitPost steps visiting st name (visit steps visiting st name) := by
    intro st name
    unfold visit
    split
    · rename_i h1
      intro hInv
      exact ⟨hInv, ⟨[], by simp⟩, fun n h => h, fun n h => Or.inl h, fun _ => h1⟩
    · split
      · rename_i h1 h2
        intro hlink
        exact ⟨⟨name, rfl⟩, linkOK_cycle steps visiting name hlink h2⟩
      · rename_i h1 h2
        split
        · rename_i hfind
          intro hInv
          refine ⟨hInv, ⟨[], by simp⟩, fun n h => h, fun n h => Or.inl h, ?_⟩
          rw [hfind]
          simp
        · rename_i step hfind
          have hnamemem : name ∈ steps.map (fun s => s.name) :=
            (step_map_get_eq steps name step hfind).2 ▸
              List.mem_map_of_mem (fun s => s.name) (step_map_get_eq steps name step hfind).1
          have hlt : freeCount steps (name :: visiting) < k :=
            lt_of_lt_of_le (freeCount_push_lt steps visiting name hnamemem h2) hk
          have hdeps := (IH _ hlt (name :: visiting) (le_refl _)).2 st step.dependencies
          split
          · rename_i e heq
            rw [heq] at hdeps
            intro hlink
            apply hdeps
            intro d hd
            exact ⟨⟨step, hfind, hd⟩, hlink⟩
          · rename_i st' heq
            rw [heq] at hdeps
            intro hInv
            obtain ⟨hInv', ⟨t, ht⟩, hmono, hnew, hvisres⟩ := hdeps hInv
            have hstepname : step.name = name := (step_map_get_eq steps name step hfind).2
            have hnotinres : name ∉ st'.result.map (fun s => s.name) := by
              intro hcon
              have := (hInv'.1 name).mpr hcon
              rcases hnew name this with h | h
              · exact h1 h
              · exact h (List.mem_cons_self name visiting)
            refine ⟨⟨?_, ?_, ?_, ?_⟩, ⟨t ++ [step], by simp [ht]⟩, ?_, ?_, ?_⟩
            · intro n
              simp only [TopoState.visited, TopoState.result, List.map_append,
                List.map_cons, List.map_nil, List.mem_append, List.mem_cons,
                List.mem_singleton, List.not_mem_nil, or_false, hstepname]
              constructor
              · rintro (h | h)
                · exact Or.inr h
                · exact Or.inl ((hInv'.1 n).mp h)
              · rintro (h | h)
                · exact Or.inr ((hInv'.1 n).mpr h)
                · exact Or.inl h
            · simp only [TopoState.result, List.map_append, List.map_cons,
                List.map_nil, hstepname]
              rw [List.nodup_append]
              refine ⟨hInv'.2.1, by simp, ?_⟩
              intro a ha hb
              simp only [List.mem_cons, List.not_mem_nil, or_false] at hb
              subst hb
              exact hnotinres ha
            · intro s hs
              rcases List.mem_append.mp hs with h | h
              · exact hInv'.2.2.1 s h
              · have : s = step := by simpa using h
                subst this
                rw [hstepname]
                exact hfind
            · apply ordered_append steps st'.result step hInv'.2.2.2
              intro d hd hsome
              exact (hInv'.1 d).mp (hvisres d hd hsome)
            · intro n h
              exact List.mem_cons_of_mem _ (hmono n h)
            · intro n hn
              rcases List.mem_cons.mp hn with h | h
              · subst h
                exact Or.inr h2
              · rcases hnew n h with h' | h'
                · exact Or.inl h'
                · exact Or.inr (fun hc => h' (List.mem_cons_of_mem _ hc))
            · intro _
              exact List.mem_cons_self _ _
  refine ⟨hvisit, ?_⟩
  intro st ds
  induction ds generalizing st with
  | nil =>
    unfold visit_deps
    intro hInv
    exact ⟨hInv, ⟨[], by simp⟩, fun n h => h, fun n h => Or.inl h, by simp⟩
  | cons d ds ihds =>
    unfold visit_deps
    split
    · rename_i e heq
      have hv := hvisit st d
      rw [heq] at hv
      intro hall
      exact hv (hall d (List.mem_cons_self d ds))
    · rename_i st1 heq
      have hv := hvisit st d
      rw [heq] at hv
      have hrest := ihds st1
      cases heq2 : visit_deps steps visiting st1 ds with
      | error e2 =>
        rw [heq2] at hrest
        intro hall
        apply hrest
        intro d' hd'
        exact hall d' (List.mem_cons_of_mem d hd')
      | ok st' =>
        rw [heq2] at hrest
        intro hInv
        obtain ⟨hInv1, ⟨t1, ht1⟩, hm1, hn1, hres1⟩ := hv hInv
        obtain ⟨hInv', ⟨t2, ht2⟩, hm2, hn2, hds2⟩ := hrest hInv1
        refine ⟨hInv', ⟨t1 ++ t2, by simp [ht2, ht1]⟩, ?_, ?_, ?_⟩
        · intro n h
          exact hm2 n (hm1 n h)
        · intro n h
          rcases hn2 n h with h' | h'
          · exact hn1 n h'
          · exact Or.inr h'
        · intro d' hd' hsome
          rcases List.mem_cons.mp hd' with h | h
          · subst h
            exact hm2 d' (hres1 hsome)
          · exact hds2 d' h hsome

theorem topological_sort_ok (steps : List IRStep) (r : List IRStep)
    (h : topological_sort steps = .ok r) :
    (r.map (fun s => s.name)).Nodup ∧
    (∀ s ∈ r, step_map_get steps s.name = some s) ∧
    Ordered steps r ∧
    (∀ n, (step_map_get steps n).isSome → n ∈ r.map (fun s => s.name)) := by
  unfold topological_sort at h
  have hpost := (visit_post steps (freeCount steps []) [] (le_refl _)).2
    ⟨[], []⟩ (steps.map (fun s => s.name))
  cases heq : visit_deps steps [] ⟨[], []⟩ (steps.map (fun s => s.name)) with
  | error e => rw [heq] at h; exact absurd h (by simp)
  | ok st =>
    rw [heq] at h hpost
    have hr : st.result = r := by simpa using h
    have hInv0 : TopoInv steps ⟨[], []⟩ := by
      refine ⟨by simp, by simp, by simp, ?_⟩
      intro i hi
      simp at hi
    obtain ⟨hInv, _, _, _, hall⟩ := hpost hInv0
    subst hr
    refine ⟨hInv.2.1, hInv.2.2.1, hInv.2.2.2, ?_⟩
    intro n hn
    rw [Option.isSome_iff_exists] at hn
    obtain ⟨s, hs⟩ := hn
    have hmem : n ∈ steps.map (fun st => st.name) :=
      (step_map_get_eq steps n s hs).2 ▸
        List.mem_map_of_mem (fun st => st.name) (step_map_get_eq steps n s hs).1
    exact (hInv.1 n).mp (hall n hmem (by simp [hs]))

theorem topological_sort_error (steps : List IRStep) (e : String)
    (h : topological_sort steps = .error e) :
    (∃ n, e = "Circular dependency detected: " ++ n) ∧ hasCycle steps := by
  unfold topological_sort at h
  have hpost := (visit_post steps (freeCount steps []) [] (le_refl _)).2
    ⟨[], []⟩ (steps.map (fun s => s.name))
  cases heq : visit_deps steps [] ⟨[], []⟩ (steps.map (fun s => s.name)) with
  | error e0 =>
    rw [heq] at h hpost
    have he : e0 = e := by simpa using h
    subst he
    exact hpost (fun d _ => trivial)
  | ok st => rw [heq] at h; exact absurd h (by simp)

theorem indexOf_lt_of_mem_take {l : List String} {a : String} :
    ∀ {n : Nat}, a ∈ l.take n → l.indexOf a < n := by
  induction l with
  | nil => intro n h; simp at h
  | cons x xs ih =>
    intro n h
    cases n with
    | zero => simp at h
    | succ m =>
      rw [List.take_succ_cons] at h
      by_cases hx : x = a
      · subst hx
        simp [List.indexOf_cons_self]
      · rcases List.mem_cons.mp h with h' | h'
        · exact absurd h'.symm hx
        · have hbeq : (x == a) = false := beq_false_of_ne hx
          have : (x :: xs).indexOf a = xs.indexOf a + 1 := by
            simp [List.indexOf_cons, hbeq]
          rw [this]
          exact Nat.succ_lt_succ (ih h')

theorem edge_indexOf_lt (steps : List IRStep) (r : List IRStep)
    (hinv3 : ∀ s ∈ r, step_map_get steps s.name = some s)
    (hord : Ordered steps r)
    (hcomp : ∀ n, (step_map_get steps n).isSome → n ∈ r.map (fun s => s.name))
    (a b : String) (hab : edge steps a b) (hb : (step_map_get steps b).isSome) :
    (r.map (fun s => s.name)).indexOf b < (r.map (fun s => s.name)).indexOf a := by
  obtain ⟨s, hsa, hbs⟩ := hab
  have hamem : a ∈ r.map (fun st => st.name) := hcomp a (by rw [hsa]; rfl)
  have hilt : (r.map (fun st => st.name)).indexOf a < (r.map (fun st => st.name)).length :=
    List.indexOf_lt_length.mpr hamem
  have hirt : (r.map (fun st => st.name)).indexOf a < r.length := by
    simpa using hilt
  have hgetname : (r.get ⟨(r.map (fun st => st.name)).indexOf a, hirt⟩).name = a := by
    have h1 := List.indexOf_get hilt
    simp only [List.get_eq_getElem, List.getElem_map] at h1
    simpa [List.get_eq_getElem] using h1
  have hmem2 : r.get ⟨(r.map (fun st => st.name)).indexOf a, hirt⟩ ∈ r :=
    List.get_mem r _ _
  have hstep := hinv3 _ hmem2
  rw [hgetname, hsa] at hstep
  have hseq : s = r.get ⟨(r.map (fun st => st.name)).indexOf a, hirt⟩ :=
    Option.some.inj hstep
  have hbdep : b ∈ (r.get ⟨(r.map (fun st => st.name)).indexOf a, hirt⟩).dependencies :=
    hseq ▸ hbs
  have htake := hord ((r.map (fun st => st.name)).indexOf a) hirt b hbdep hb
  rw [List.map_take] at htake
  exact indexOf_lt_of_mem_take htake

theorem isPath_descent (steps : List IRStep) (r : List IRStep)
    (hinv3 : ∀ s ∈ r, step_map_get steps s.name = some s)
    (hord : Ordered steps r)
    (hcomp : ∀ n, (step_map_get steps n).isSome → n ∈ r.map (fun s => s.name)) :
    ∀ (l : List String) (a b : String), isPath steps a l b →
      (step_map_get steps b).isSome →
      (r.map (fun s => s.name)).indexOf b < (r.map (fun s => s.name)).indexOf a := by
  intro l
  induction l with
  | nil =>
    intro a b hp hb
    exact edge_indexOf_lt steps r hinv3 hord hcomp a b hp hb
  | cons x xs ih =>
    intro a b hp hb
    have hx : (step_map_get steps x).isSome := by
      cases xs with
      | nil =>
        obtain ⟨s, hs, _⟩ := hp.2
        simp [hs]
      | cons y ys =>
        obtain ⟨s, hs, _⟩ := hp.2.1
        simp [hs]
    exact lt_trans (ih x b hp.2 hb)
      (edge_indexOf_lt steps r hinv3 hord hcomp a x hp.1 hx)

theorem topological_sort_ok_acyclic (steps : List IRStep) (r : List IRStep)
    (h : topological_sort steps = .ok r) : ¬ hasCycle steps := by
  obtain ⟨_, hinv3, hord, hcomp⟩ := topological_sort_ok steps r h
  rintro ⟨a, l, hp⟩
  have ha : (step_map_get steps a).isSome := by
    cases l with
    | nil => obtain ⟨s, hs, _⟩ := hp; simp [hs]
    | cons x xs => obtain ⟨s, hs, _⟩ := hp.1; simp [hs]
  exact lt_irrefl _ (isPath_descent steps r hinv3 hord hcomp l a a hp ha)

/-- Resolution of the whole sort: it fails exactly on the cyclic graphs, and
any failure carries the circular-dependency message. -/
theorem topological_sort_error_iff (steps : List IRStep) :
    (∃ e, topological_sort steps = .error e) ↔ hasCycle steps := by
  constructor
  · rintro ⟨e, he⟩
    exact (topological_sort_error steps e he).2
  · intro hc
    cases h : topological_sort steps with
    | error e => exact ⟨e, rfl⟩
    | ok r => exact absurd hc (topological_sort_ok_acyclic steps r h)

theorem step_map_get_of_nodup (steps : List IRStep)
    (hnd : (steps.map (fun s => s.name)).Nodup) (s : IRStep) (hs : s ∈ steps) :
    step_map_get steps s.name = some s := by
  have hsome := step_map_get_isSome_of_mem steps s hs
  rw [Option.isSome_iff_exists] at hsome
  obtain ⟨s0, hs0⟩ := hsome
  obtain ⟨hs0mem, hs0name⟩ := step_map_get_eq steps s.name s0 hs0
  have heq : s0 = s := List.inj_on_of_nodup_map hnd hs0mem hs hs0name
  rw [hs0, heq]

/-- With unique step names (the data-model invariant), a successful sort is a
permutation of the declared steps. -/
theorem topological_sort_perm (steps r : List IRStep)
    (hnd : (steps.map (fun s => s.name)).Nodup)
    (h : topological_sort steps = .ok r) : r.Perm steps := by
  obtain ⟨hndr, hinv3, _, hcomp⟩ := topological_sort_ok steps r h
  have hrnd : r.Nodup := List.Nodup.of_map _ hndr
  have hsnd : steps.Nodup := List.Nodup.of_map _ hnd
  refine (List.perm_ext_iff_of_nodup hrnd hsnd).mpr ?_
  intro s
  constructor
  · intro hs
    exact (step_map_get_eq steps s.name s (hinv3 s hs)).1
  · intro hs
    have hres := hcomp s.name (step_map_get_isSome_of_mem steps s hs)
    rw [List.mem_map] at hres
    obtain ⟨s1, hs1mem, hs1name⟩ := hres
    have h1 := hinv3 s1 hs1mem
    rw [hs1name] at h1
    have h2 := step_map_get_of_nodup steps hnd s hs
    rw [h1] at h2
    have : s1 = s := by simpa using h2
    exact this ▸ hs1mem

/-! ## Dictionary lemmas -/

theorem lookupD_isSome_iff {α : Type} (l : List (String × α)) (k : String) :
    (lookupD l k).isSome ↔ k ∈ l.map (fun p => p.1) := by
  unfold lookupD
  have hsome : (Option.map (fun p : String × α => p.2)
        (List.find? (fun p => p.1 == k) l)).isSome
      = (List.find? (fun p => p.1 == k) l).isSome := by
    cases List.find? (fun p => p.1 == k) l <;> rfl
  rw [hsome, List.find?_isSome]
  constructor
  · rintro ⟨p, hp, hk⟩
    have : p.1 = k := by simpa using hk
    exact this ▸ List.mem_map_of_mem _ hp
  · intro hk
    rw [List.mem_map] at hk
    obtain ⟨p, hp, hpk⟩ := hk
    exact ⟨p, hp, by simp [hpk]⟩

theorem lookupD_append {α : Type} (l1 l2 : List (String × α)) (k : String) :
    lookupD (l1 ++ l2) k =
      ((lookupD l1 k).or (lookupD l2 k)) := by
  unfold lookupD
  rw [List.find?_append]
  cases List.find? (fun p => p.1 == k) l1 <;> simp

theorem dictInsert_of_fresh {α : Type} (l : List (String × α)) (k : String) (v : α)
    (h : ¬ (lookupD l k).isSome) : dictInsert l k v = l ++ [(k, v)] := by
  unfold dictInsert
  simp [h]

/-! ## Compilation-level lemmas -/

theorem compile_steps_loop_keys :
    ∀ (sorted : List IRStep) (acc : List (String × Obs)) (context : RuntimeContext)
      (obs : List (String × Obs)) (context' : RuntimeContext),
      (∀ s ∈ sorted, s.name ∉ acc.map (fun p => p.1)) →
      (sorted.map (fun s => s.name)).Nodup →
      compile_steps_loop sorted acc context = .ok (obs, context') →
      obs.map (fun p => p.1) = acc.map (fun p => p.1) ++ sorted.map (fun s => s.name) := by
  intro sorted
  induction sorted with
  | nil =>
    intro acc context obs context' _ _ h
    unfold compile_steps_loop at h
    have : acc = obs := by
      cases h
      rfl
    simp [this]
  | cons step rest ih =>
    intro acc context obs context' hfresh hnd h
    unfold compile_steps_loop at h
    cases hexpr : compile_expression step.expression context with
    | error e =>
      rw [hexpr] at h
      exact absurd h (by simp)
    | ok observable =>
      rw [hexpr] at h
      dsimp only at h
      have hnotin : step.name ∉ acc.map (fun p => p.1) :=
        hfresh step (List.mem_cons_self step rest)
      have hins : dictInsert acc step.name observable = acc ++ [(step.name, observable)] :=
        dictInsert_of_fresh acc step.name observable
          (fun hs => hnotin ((lookupD_isSome_iff acc step.name).mp hs))
      rw [hins] at h
      have hfresh' : ∀ s ∈ rest, s.name ∉ (acc ++ [(step.name, observable)]).map (fun p => p.1) := by
        intro s hs
        rw [List.map_append, List.mem_append]
        rintro (hc | hc)
        · exact hfresh s (List.mem_cons_of_mem step hs) hc
        · have hsname : s.name = step.name := by simpa using hc
          have : step.name ∉ rest.map (fun st => st.name) := by
            have := hnd
            simp only [List.map_cons, List.nodup_cons] at this
            exact this.1
          exact this (hsname ▸ List.mem_map_of_mem (fun st => st.name) hs)
      have hnd' : (rest.map (fun s => s.name)).Nodup := by
        have := hnd
        simp only [List.map_cons, List.nodup_cons] at this
        exact this.2
      have := ih (acc ++ [(step.name, observable)]) _ obs context' hfresh' hnd' h
      rw [this]
      simp

theorem compile_steps_loop_ok :
    ∀ (sorted : List IRStep) (acc : List (String × Obs)) (context : RuntimeContext),
      (∀ s ∈ sorted, ∀ c : RuntimeContext, (compile_expression s.expression c).isOk) →
      (compile_steps_loop sorted acc context).isOk := by
  intro sorted
  induction sorted with
  | nil =>
    intro acc context _
    unfold compile_steps_loop
    rfl
  | cons step rest ih =>
    intro acc context hok
    unfold compile_steps_loop
    cases hexpr : compile_expression step.expression context with
    | error e =>
      have := hok step (List.mem_cons_self step rest) context
      rw [hexpr] at this
      exact absurd this (by simp [Except.isOk, Except.toBool])
    | ok observable =>
      dsimp only
      exact ih _ _ (fun s hs c => hok s (List.mem_cons_of_mem step hs) c)

/-! ## Stream lemmas for the map/flatMap/filter semantics -/

theorem apply_function_justS (c v : Value) :
    apply_function (justS c) v = justS v := rfl

theorem flatMapGo_pass (c : Value) :
    ∀ (vs : List Value) (t : Option String),
      flatMapGo (fun v => apply_function (justS c) v) vs t = ⟨vs, t⟩ := by
  intro vs
  induction vs with
  | nil => intro t; rfl
  | cons v rest ih =>
    intro t
    unfold flatMapGo
    rw [ih t]
    rfl

/-- The pass-through behaviour of `map`/`flatMap` when the function stream is
a single literal: `_apply_function` discards the function stream's value and
re-emits the source value, so the whole operation is the identity on the
source stream. -/
theorem flatMapS_apply_just (c : Value) (s : Obs) :
    flatMapS (fun v => apply_function (justS c) v) s = s :=
  flatMapGo_pass c s.emits s.terminal

theorem flatMapGo_filter (c : Value) :
    ∀ (vs : List Value) (t : Option String),
      flatMapGo (fun v =>
        flatMapS (fun result => if truthy result then justS v else emptyS)
          (apply_function (justS c) v)) vs t = ⟨vs.filter truthy, t⟩ := by
  intro vs
  induction vs with
  | nil => intro t; rfl
  | cons v rest ih =>
    intro t
    unfold flatMapGo
    have hinner : flatMapS (fun result => if truthy result then justS v else emptyS)
        (apply_function (justS c) v) = ⟨if truthy v then [v] else [], none⟩ := by
      cases h : truthy v <;>
        simp [flatMapS, apply_function, justS, mapS, flatMapGo, emptyS, h]
    rw [hinner]
    dsimp only
    rw [ih t]
    by_cases h : truthy v = true
    · simp [List.filter_cons, h]
    · simp only [Bool.not_eq_true] at h
      simp [List.filter_cons, h]

/-- The behaviour of `filter` when the predicate stream is a single literal:
`_apply_function` replaces the predicate's value by the source value, so the
compiled stream keeps exactly the source values that are themselves truthy —
the predicate's own value is ignored. -/
theorem flatMapS_filter_just (c : Value) (s : Obs) :
    flatMapS (fun v =>
      flatMapS (fun result => if truthy result then justS v else emptyS)
        (apply_function (justS c) v)) s = ⟨s.emits.filter truthy, s.terminal⟩ :=
  flatMapGo_filter c s.emits s.terminal

/-! ## Latest-value combination as a function of the interleaved event trace

`rx.combine_latest` is pinned down by the spec's "latest-value combination"
contract: whenever either source produces a value, emit a pair made of the
most recent value of each source (no pair is possible before both sources
have produced at least one value). `clGo` folds an arbitrary interleaving of
the two sources' emissions (`Sum.inl` = first source, `Sum.inr` = second),
tracking the latest value seen on each side. -/
def clGo : Option Value → Option Value → List (Sum Value Value) → List (Value × Value)
| _, _, [] => []
| l, r, e :: rest =>
  match e with
  | .inl v =>
    (match r with
     | some rv => [(v, rv)]
     | none => []) ++ clGo (some v) r rest
  | .inr v =>
    (match l with
     | some lv => [(lv, v)]
     | none => []) ++ clGo l (some v) rest

/-- The pairs emitted by latest-value combination over an interleaved trace. -/
def combineLatestTrace (events : List (Sum Value Value)) : List (Value × Value) :=
  clGo none none events

/-- The latest first-source value after `events`, starting from `l`. -/
def latestL (l : Option Value) (events : List (Sum Value Value)) : Option Value :=
  events.foldl (fun acc e => match e with | .inl v => some v | .inr _ => acc) l

/-- The latest second-source value after `events`, starting from `r`. -/
def latestR (r : Option Value) (events : List (Sum Value Value)) : Option Value :=
  events.foldl (fun acc e => match e with | .inr v => some v | .inl _ => acc) r

theorem clGo_append_inl (v : Value) :
    ∀ (events : List (Sum Value Value)) (l r : Option Value),
      clGo l r (events ++ [.inl v]) =
        clGo l r events ++
          (match latestR r events with
           | some rv => [(v, rv)]
           | none => []) := by
  intro events
  induction events with
  | nil =>
    intro l r
    cases r <;> rfl
  | cons e rest ih =>
    intro l r
    cases e with
    | inl w =>
      show (match r with | some rv => [(w, rv)] | none => []) ++ clGo (some w) r (rest ++ [.inl v]) = _
      rw [ih (some w) r]
      cases r <;> simp [clGo, latestR]
    | inr w =>
      show (match l with | some lv => [(lv, w)] | none => []) ++ clGo l (some w) (rest ++ [.inl v]) = _
      rw [ih l (some w)]
      cases l <;> simp [clGo, latestR]

theorem clGo_append_inr (v : Value) :
    ∀ (events : List (Sum Value Value)) (l r : Option Value),
      clGo l r (events ++ [.inr v]) =
        clGo l r events ++
          (match latestL l events with
           | some lv => [(lv, v)]
           | none => []) := by
  intro events
  induction events with
  | nil =>
    intro l r
    cases l <;> rfl
  | cons e rest ih =>
    intro l r
    cases e with
    | inl w =>
      show (match r with | some rv => [(w, rv)] | none => []) ++ clGo (some w) r (rest ++ [.inr v]) = _
      rw [ih (some w) r]
      cases r <;> simp [clGo, latestL]
    | inr w =>
      show (match l with | some lv => [(lv, w)] | none => []) ++ clGo l (some w) (rest ++ [.inr v]) = _
      rw [ih l (some w)]
      cases l <;> simp [clGo, latestL]

theorem clGo_lefts :
    ∀ (xs : List Value) (l : Option Value) (rest : List (Sum Value Value)),
      clGo l none (xs.map .inl ++ rest) = clGo (latestL l (xs.map .inl)) none rest := by
  intro xs
  induction xs with
  | nil => intro l rest; rfl
  | cons x xs ih =>
    intro l rest
    show ([] : List (Value × Value)) ++ clGo (some x) none (xs.map .inl ++ rest) = _
    rw [List.nil_append, ih (some x) rest]
    simp [latestL]

theorem clGo_rights_some (a : Value) :
    ∀ (ys : List Value) (r : Option Value),
      clGo (some a) r (ys.map .inr) = ys.map (fun y => (a, y)) := by
  intro ys
  induction ys with
  | nil => intro r; rfl
  | cons y ys ih =>
    intro r
    show [(a, y)] ++ clGo (some a) (some y) (ys.map .inr) = _
    rw [ih (some y)]
    rfl

theorem clGo_rights_none :
    ∀ (ys : List Value) (r : Option Value), clGo none r (ys.map .inr) = [] := by
  intro ys
  induction ys with
  | nil => intro r; rfl
  | cons y ys ih =>
    intro r
    show ([] : List (Value × Value)) ++ clGo none (some y) (ys.map .inr) = []
    rw [List.nil_append, ih (some y)]

theorem latestL_lefts :
    ∀ (xs : List Value) (l : Option Value),
      latestL l (xs.map .inl) =
        (match xs.getLast? with
         | some a => some a
         | none => l) := by
  intro xs
  induction xs with
  | nil => intro l; rfl
  | cons x xs ih =>
    intro l
    have hstep : latestL l ((x :: xs).map .inl) = latestL (some x) (xs.map .inl) := rfl
    rw [hstep, ih (some x)]
    cases xs with
    | nil => rfl
    | cons y ys =>
      rw [List.getLast?_cons_cons]
      cases h : (y :: ys).getLast? with
      | none => exact absurd h (by simp)
      | some a => rfl

/-- In the synchronous subscription order the runtime produces (first source
drains fully, then the second), `combine_latest` of two sources agrees with
the latest-value-combination of the interleaved trace, and its terminal event
is the second source's one. -/
theorem combineLatestList_two_trace (s1 s2 : Obs) (h : s1.terminal = none) :
    (combineLatestList [s1, s2]).emits =
      (combineLatestTrace (s1.emits.map .inl ++ s2.emits.map .inr)).map
        (fun pr => Value.vList [pr.1, pr.2]) ∧
    (combineLatestList [s1, s2]).terminal = s2.terminal := by
  have hbody : combineLatestList [s1, s2] =
      (match s1.terminal with
       | some e => ⟨[], some e⟩
       | none =>
         match s1.emits.getLast? with
         | none => ⟨[], (combineLatestList [s2]).terminal⟩
         | some a => ⟨(combineLatestList [s2]).emits.map (tupleCons a),
             (combineLatestList [s2]).terminal⟩) := rfl
  rw [hbody, h]
  unfold combineLatestTrace
  rw [clGo_lefts s1.emits none (s2.emits.map .inr), latestL_lefts]
  cases hl : s1.emits.getLast? with
  | none =>
    dsimp only
    rw [clGo_rights_none s2.emits none]
    exact ⟨rfl, rfl⟩
  | some a =>
    dsimp only
    rw [clGo_rights_some a s2.emits none]
    refine ⟨?_, rfl⟩
    show (s2.emits.map (fun v => Value.vList [v])).map (tupleCons a) = _
    rw [List.map_map, List.map_map]
    rfl

theorem clGo_rights_none_emits (s2 : Obs) :
    clGo none none (s2.emits.map .inr) = [] := clGo_rights_none s2.emits none

/-! ## Input-binding lemmas -/

theorem bind_inputs_error (input_defs : List IRInput) (inputs : List (String × Value))
    (d : IRInput) (hd : d ∈ input_defs)
    (hbad : (isNoneV ((lookupD inputs d.name).getD d.default_value)
      && !d.optional) = true) :
    ∃ n, bind_inputs input_defs inputs = .error ("Required input missing: " ++ n) := by
  induction input_defs with
  | nil => simp at hd
  | cons e rest ih =>
    unfold bind_inputs
    by_cases he : (isNoneV ((lookupD inputs e.name).getD e.default_value)
        && !e.optional) = true
    · rw [if_pos he]
      exact ⟨e.name, rfl⟩
    · rw [if_neg he]
      have hdr : d ∈ rest := by
        rcases List.mem_cons.mp hd with h | h
        · subst h; exact absurd hbad he
        · exact h
      obtain ⟨n, hn⟩ := ih hdr
      rw [hn]
      exact ⟨n, rfl⟩

theorem bind_inputs_congr (input_defs : List IRInput)
    (inputs1 inputs2 : List (String × Value))
    (h : ∀ d ∈ input_defs, (lookupD inputs1 d.name).getD d.default_value =
      (lookupD inputs2 d.name).getD d.default_value) :
    bind_inputs input_defs inputs1 = bind_inputs input_defs inputs2 := by
  induction input_defs with
  | nil => rfl
  | cons e rest ih =>
    unfold bind_inputs
    rw [h e (List.mem_cons_self e rest),
      ih (fun d hd => h d (List.mem_cons_of_mem e hd))]

theorem lookupD_cons {α : Type} (p : String × α) (l : List (String × α)) (k : String) :
    lookupD (p :: l) k = if p.1 == k then some p.2 else lookupD l k := by
  by_cases h : (p.1 == k) = true <;> simp [lookupD, List.find?, h]

theorem lookupD_eraseKey_self {α : Type} (l : List (String × α)) (k : String) :
    lookupD (eraseKey l k) k = none := by
  induction l with
  | nil => rfl
  | cons p rest ih =>
    unfold eraseKey at ih ⊢
    by_cases hp : (p.1 == k) = true
    · rw [List.filter_cons_of_neg (by simp [hp])]
      exact ih
    · rw [List.filter_cons_of_pos (by simp [hp]), lookupD_cons, if_neg hp]
      exact ih

theorem lookupD_eraseKey_ne {α : Type} (l : List (String × α)) (k k' : String)
    (h : k' ≠ k) : lookupD (eraseKey l k) k' = lookupD l k' := by
  induction l with
  | nil => rfl
  | cons p rest ih =>
    unfold eraseKey at ih ⊢
    by_cases hp : (p.1 == k) = true
    · rw [List.filter_cons_of_neg (by simp [hp])]
      have hpk : p.1 = k := by simpa using hp
      rw [lookupD_cons, if_neg (by simp [hpk]; exact fun hc => h hc.symm)]
      exact ih
    · rw [List.filter_cons_of_pos (by simp [hp]), lookupD_cons, lookupD_cons]
      by_cases hq : (p.1 == k') = true
      · rw [if_pos hq, if_pos hq]
      · rw [if_neg hq, if_neg hq]
        exact ih

/-- A pipeline whose steps declare no dependencies has no cycle. -/
theorem no_deps_no_cycle (steps : List IRStep)
    (h : ∀ s ∈ steps, s.dependencies = []) : ¬ hasCycle steps := by
  rintro ⟨a, l, hp⟩
  have hedge : ∃ b, edge steps a b := by
    cases l with
    | nil => exact ⟨a, hp⟩
    | cons x xs => exact ⟨x, hp.1⟩
  obtain ⟨b, s, hs, hb⟩ := hedge
  have hmem := (step_map_get_eq steps a s hs).1
  rw [h s hmem] at hb
  simp at hb

/-! ## Concrete fixtures used by witnesses and counterexamples -/

/-- A context with no bound variables, no compiled steps and an empty tool
registry. -/
def emptyContext : RuntimeContext := ⟨[], [], []⟩

/-- Model of `ExecutionOptions()` — the Python defaults. -/
def defaultOptions : ExecutionOptions := ⟨none, 0, false⟩

/-- Model of `map` applied to the single-value stream `[5]` and the constant function
stream `[10]` — the spec's first map test vector. -/
def mapExpr52 : IRExpression :=
  .operation ("op") .map
    [.literal ("l1") .number (.vInt 5), .literal ("l2") .number (.vInt 10)] .number

/-- Model of `map` over the three-value source `concat(1, 2, 3)` with the constant
function stream `[10]`. -/
def mapExpr123 : IRExpression :=
  .operation ("op") .map
    [.operation ("c") .concat
      [.literal ("l1") .number (.vInt 1), .literal ("l2") .number (.vInt 2),
       .literal ("l3") .number (.vInt 3)] .number,
     .literal ("l4") .number (.vInt 10)] .number

/-- Model of `filter` over the single-value source `[1]` with the always-false
predicate stream. -/
def filterExprFalse : IRExpression :=
  .operation ("op") .filter
    [.literal ("l1") .number (.vInt 1), .literal ("l2") .boolean (.vBool false)] .number

/-- Model of `filter` over the single-value source `[0]` with the always-true
predicate stream. -/
def filterExprTrue : IRExpression :=
  .operation ("op") .filter
    [.literal ("l1") .number (.vInt 0), .literal ("l2") .boolean (.vBool true)] .number

/-! ## Claim C2 -/

/-- Claim C2, as stated, is false: `_apply_function` replaces the function
stream's emission by the original input value, so `map([5], always-10)`
yields `[5]`, not `[10]`. This exhibits the concrete computation. -/
theorem claim_C2_counterexample :
    compile_expression mapExpr52 emptyContext = .ok ⟨[.vInt 5], none⟩ ∧
    (⟨[.vInt 5], none⟩ : Obs) ≠ (⟨[.vInt 10], none⟩ : Obs) := by
  refine ⟨rfl, ?_⟩
  intro hcon
  have : ([Value.vInt 5] : List Value) = [Value.vInt 10] := congrArg Obs.emits hcon
  simp at this

/-- Claim C2 (amended): `map` (and `flatMap`) with a single-value literal
function stream is the identity on the source stream — the function stream's
value is discarded and each source value passes through unchanged, in arrival
order. Concretely, source `[5]` with function stream `[10]` yields `[5]`
(not `[10]`), and source `[1,2,3]` yields `[1,2,3]`. -/
theorem claim_C2 :
    (∀ (i i1 : String) (t t1 : IRType) (context : RuntimeContext)
       (e : IRExpression) (c : Value),
      compile_expression (.operation i .map [e, .literal i1 t1 c] t) context =
        compile_expression e context) ∧
    (∀ (i i1 : String) (t t1 : IRType) (context : RuntimeContext)
       (e : IRExpression) (c : Value),
      compile_expression (.operation i .flatMap [e, .literal i1 t1 c] t) context =
        compile_expression e context) ∧
    compile_expression mapExpr52 emptyContext = .ok ⟨[.vInt 5], none⟩ ∧
    compile_expression mapExpr123 emptyContext = .ok ⟨[.vInt 1, .vInt 2, .vInt 3], none⟩ := by
  refine ⟨?_, ?_, rfl, rfl⟩
  · intro i i1 t t1 context e c
    cases he : compile_expression e context with
    | error err => simp [compile_expression, compile_expr_list, he]
    | ok s =>
      simp [compile_expression, compile_expr_list, he, compile_operation,
        flatMapS_apply_just]
  · intro i i1 t t1 context e c
    cases he : compile_expression e context with
    | error err => simp [compile_expression, compile_expr_list, he]
    | ok s =>
      simp [compile_expression, compile_expr_list, he, compile_operation,
        flatMapS_apply_just]

/-! ## Claim C3 -/

/-- Claim C3, as stated, is false: `filter` with the always-false predicate
stream over the non-empty source `[1]` yields `[1]`, not the empty stream,
because `_apply_function` replaces the predicate's value by the source value
and the truthiness test is applied to the source value itself. -/
theorem claim_C3_counterexample :
    compile_expression filterExprFalse emptyContext = .ok ⟨[.vInt 1], none⟩ ∧
    ([Value.vInt 1] : List Value) ≠ [] := by
  refine ⟨rfl, by simp⟩

/-- Claim C3 (amended): `filter` with a single-value literal predicate stream
keeps exactly the source values that are themselves truthy, in order,
regardless of the predicate's value (which `_apply_function` discards).
Concretely the always-false predicate keeps the truthy source `[1]`, and the
always-true predicate drops the falsy source `[0]`. -/
theorem claim_C3 :
    (∀ (i i1 : String) (t t1 : IRType) (context : RuntimeContext)
       (e : IRExpression) (c : Value),
      compile_expression (.operation i .filter [e, .literal i1 t1 c] t) context =
        (compile_expression e context).map
          (fun s => ⟨s.emits.filter truthy, s.terminal⟩)) ∧
    compile_expression filterExprFalse emptyContext = .ok ⟨[.vInt 1], none⟩ ∧
    compile_expression filterExprTrue emptyContext = .ok ⟨[], none⟩ := by
  refine ⟨?_, rfl, rfl⟩
  intro i i1 t t1 context e c
  cases he : compile_expression e context with
  | error err => simp [compile_expression, compile_expr_list, he, Except.map]
  | ok s =>
    simp [compile_expression, compile_expr_list, he, compile_operation,
      flatMapS_filter_just, Except.map]

/-! ## Claim C8 -/

/-- Claim C8: for any pair of input expressions and any context, `flatMap`
compiles to exactly the same stream as `map` — the two operator branches of
`_compile_operation` have identical bodies for two inputs. -/
theorem claim_C8 :
    ∀ (i : String) (t : IRType) (context : RuntimeContext)
      (e1 e2 : IRExpression),
      compile_expression (.operation i .flatMap [e1, e2] t) context =
        compile_expression (.operation i .map [e1, e2] t) context := by
  intro i t context e1 e2
  cases he1 : compile_expression e1 context with
  | error err => simp [compile_expression, compile_expr_list, he1]
  | ok s1 =>
    cases he2 : compile_expression e2 context with
    | error err => simp [compile_expression, compile_expr_list, he1, he2]
    | ok s2 =>
      simp [compile_expression, compile_expr_list, he1, he2, compile_operation]

/-! ## Claim C5 -/

/-- Claim C5: a compiled pipeline declaring a required input (`optional`
false, no default value) fails `run` with the missing-required-input error
whenever the supplied inputs do not provide that input. `run` returns the
raised exception instead of a stream, so no output observable is built, no
step stream is subscribed, no tool invocation occurs and the caller gets no
partial result. -/
theorem claim_C5 (cp : CompiledPipeline) (d : IRInput)
    (inputs : List (String × Value)) (options : ExecutionOptions)
    (hd : d ∈ cp.pipeline.inputs) (hopt : d.optional = false)
    (hdef : d.default_value = .vNone) (hmiss : lookupD inputs d.name = none) :
    ∃ n, run cp inputs options = .error ("Required input missing: " ++ n) := by
  have hbad : (isNoneV ((lookupD inputs d.name).getD d.default_value)
      && !d.optional) = true := by
    rw [hmiss, hdef, hopt]
    rfl
  obtain ⟨n, hn⟩ := bind_inputs_error cp.pipeline.inputs inputs d hd hbad
  refine ⟨n, ?_⟩
  unfold run
  rw [hn]

/-- The pipeline used to witness `run`-level claims: one required input
`x` (no default), no steps, no outputs. -/
def pReq : IRPipeline :=
  ⟨none, [⟨("x"), .string, false, .vNone⟩], [], [], none⟩

/-- Its (trivially) compiled form. -/
def cpReq : CompiledPipeline := ⟨pReq, [], emptyContext⟩

theorem claim_C5_witness :
    run cpReq [] defaultOptions = .error ("Required input missing: " ++ "x") := by
  obtain ⟨n, hn⟩ := claim_C5 cpReq ⟨("x"), .string, false, .vNone⟩ [] defaultOptions
    (by simp [cpReq, pReq]) rfl rfl rfl
  exact rfl

/-! ## Claim C9 -/

/-- Claim C9: explicitly supplying `None` for a required input (no default)
behaves exactly as not supplying it: `inputs.get(name, default)` returns the
stored `None` rather than the default, the `value is None and not optional`
check fires, and `run` fails with the missing-required-input error. The two
calls are indistinguishable, so `None` can never be passed as a required
input's value. -/
theorem claim_C9 (cp : CompiledPipeline) (d : IRInput)
    (inputs : List (String × Value)) (options : ExecutionOptions)
    (hnd : (cp.pipeline.inputs.map (fun i => i.name)).Nodup)
    (hd : d ∈ cp.pipeline.inputs) (hopt : d.optional = false)
    (hdef : d.default_value = .vNone)
    (hsupp : lookupD inputs d.name = some .vNone) :
    (∃ n, run cp inputs options = .error ("Required input missing: " ++ n)) ∧
    run cp inputs options = run cp (eraseKey inputs d.name) options := by
  constructor
  · have hbad : (isNoneV ((lookupD inputs d.name).getD d.default_value)
        && !d.optional) = true := by
      rw [hsupp, hopt]
      rfl
    obtain ⟨n, hn⟩ := bind_inputs_error cp.pipeline.inputs inputs d hd hbad
    refine ⟨n, ?_⟩
    unfold run
    rw [hn]
  · have hcongr : bind_inputs cp.pipeline.inputs inputs =
        bind_inputs cp.pipeline.inputs (eraseKey inputs d.name) := by
      apply bind_inputs_congr
      intro d2 hd2
      by_cases hname : d2.name = d.name
      · have hd2d : d2 = d :=
          List.inj_on_of_nodup_map hnd hd2 hd hname
        subst hd2d
        rw [hsupp, lookupD_eraseKey_self, hdef]
        rfl
      · rw [lookupD_eraseKey_ne inputs d.name d2.name hname]
    unfold run
    rw [hcongr]

theorem claim_C9_witness :
    run cpReq [(("x"), .vNone)] defaultOptions =
      run cpReq (eraseKey [(("x"), .vNone)] ("x")) defaultOptions := by
  have h := claim_C9 cpReq ⟨("x"), .string, false, .vNone⟩ [(("x"), .vNone)]
    defaultOptions (by simp [cpReq, pReq]) (by simp [cpReq, pReq]) rfl rfl rfl
  exact h.2

/-! ## Claim C6 -/

/-- Claim C6, as stated, is false: the zero-output early return happens only
after input binding, so a zero-output pipeline with an unsatisfied required
input fails `run` with the missing-required-input error instead of producing
the empty mapping. -/
theorem claim_C6_counterexample :
    cpReq.pipeline.outputs = [] ∧
    run cpReq [] defaultOptions = .error ("Required input missing: " ++ "x") ∧
    run cpReq [] defaultOptions ≠ .ok (justS (.vDict [])) := by
  refine ⟨rfl, rfl, ?_⟩
  rw [show run cpReq [] defaultOptions =
    Except.error ("Required input missing: " ++ "x") from rfl]
  simp

/-- Claim C6 (amended): for every compiled pipeline with zero declared
outputs and every input binding that passes the required-input check, `run`
returns `Observable.just({})` — a stream producing exactly the one empty
mapping and completing — regardless of the supplied input values and of the
execution options (the early return happens before the options are
applied). -/
theorem claim_C6 (cp : CompiledPipeline) (inputs : List (String × Value))
    (options : ExecutionOptions) (houts : cp.pipeline.outputs = [])
    (hbind : (bind_inputs cp.pipeline.inputs inputs).isOk) :
    run cp inputs options = .ok (justS (.vDict [])) := by
  unfold run
  cases hb : bind_inputs cp.pipeline.inputs inputs with
  | error e =>
    rw [hb] at hbind
    exact absurd hbind (by simp [Except.isOk, Except.toBool])
  | ok bound =>
    rw [houts]
    rfl

/-- A zero-input, zero-output pipeline. -/
def pEmpty : IRPipeline := ⟨none, [], [], [], none⟩

/-- Its compiled form. -/
def cpEmpty : CompiledPipeline := ⟨pEmpty, [], emptyContext⟩

theorem claim_C6_witness :
    run cpEmpty [(("y"), .vInt 3)] defaultOptions = .ok (justS (.vDict [])) :=
  claim_C6 cpEmpty [(("y"), .vInt 3)] defaultOptions rfl rfl

/-! ## Claim C7 -/

/-- Claim C7: a `zip` operation with exactly two inputs compiles to
`combine_latest` of the two input streams; latest-value combination is the
trace semantics in which, once a side has a latest value, every new value of
the other side emits exactly one pair of the two most recent values (and a
new value on a side whose opposite has emitted nothing emits nothing);
the runtime's synchronous subscription order realises that trace semantics;
index-aligned pairing is refuted by the trace `L1, L2, R3`, which pairs `R3`
with the most recent `L2`, not with `L1`; and a `zip` with an input list of
any other length compiles to a stream failing with the malformed-operation
message. -/
theorem claim_C7 :
    (∀ (i : String) (t : IRType) (context : RuntimeContext)
       (e1 e2 : IRExpression) (s1 s2 : Obs),
      compile_expression e1 context = .ok s1 →
      compile_expression e2 context = .ok s2 →
      compile_expression (.operation i .zip [e1, e2] t) context =
        .ok (combineLatestList [s1, s2])) ∧
    (∀ l : List Obs, l.length ≠ 2 →
      compile_operation .zip l = .ok (throwS ("zip requires exactly 2 inputs"))) ∧
    (∀ (events : List (Sum Value Value)) (v : Value),
      combineLatestTrace (events ++ [.inl v]) =
        combineLatestTrace events ++
          (match latestR none events with
           | some rv => [(v, rv)]
           | none => [])) ∧
    (∀ (events : List (Sum Value Value)) (v : Value),
      combineLatestTrace (events ++ [.inr v]) =
        combineLatestTrace events ++
          (match latestL none events with
           | some lv => [(lv, v)]
           | none => [])) ∧
    (∀ s1 s2 : Obs, s1.terminal = none →
      (combineLatestList [s1, s2]).emits =
        (combineLatestTrace (s1.emits.map .inl ++ s2.emits.map .inr)).map
          (fun pr => Value.vList [pr.1, pr.2]) ∧
      (combineLatestList [s1, s2]).terminal = s2.terminal) ∧
    (∀ v1 v2 v3 : Value,
      combineLatestTrace [.inl v1, .inl v2, .inr v3] = [(v2, v3)]) := by
  refine ⟨?_, ?_, ?_, ?_, ?_, ?_⟩
  · intro i t context e1 e2 s1 s2 he1 he2
    simp [compile_expression, compile_expr_list, he1, he2, compile_operation]
  · intro l hl
    match l with
    | [] => rfl
    | [a] => rfl
    | [a, b] => exact absurd rfl hl
    | a :: b :: c :: rest => rfl
  · intro events v
    exact clGo_append_inl v events none none
  · intro events v
    exact clGo_append_inr v events none none
  · intro s1 s2 h
    exact combineLatestList_two_trace s1 s2 h
  · intro v1 v2 v3
    rfl

/-- The `zip` expression used by the witness. -/
def zipExprW : IRExpression :=
  .operation ("z") .zip
    [.literal ("l1") .number (.vInt 1), .literal ("l2") .number (.vInt 2)] .number

theorem claim_C7_witness :
    compile_expression zipExprW emptyContext =
      .ok (combineLatestList [justS (.vInt 1), justS (.vInt 2)]) ∧
    compile_operation .zip [] = .ok (throwS ("zip requires exactly 2 inputs")) ∧
    (combineLatestList [justS (.vInt 1), justS (.vInt 2)]).emits =
      [Value.vList [.vInt 1, .vInt 2]] ∧
    combineLatestTrace [.inl (.vInt 1), .inl (.vInt 2), .inr (.vInt 3)] =
      [(Value.vInt 2, Value.vInt 3)] := by
  refine ⟨claim_C7.1 ("z") .number emptyContext _ _ _ _ rfl rfl,
    claim_C7.2.1 [] (by simp),
    rfl,
    claim_C7.2.2.2.2.2 (.vInt 1) (.vInt 2) (.vInt 3)⟩

/-! ## Claim C10 -/

/-- Claim C10: whenever `compile` accepts a pipeline, every step is compiled
and registered exactly once: `get_step_names()` lists exactly the declared
step names (without duplicates; the order is the resolver's order), and
`get_step(name)` is defined exactly on the declared step names. This holds
regardless of runtime-failing constructs inside the step expressions
(unknown variables, unknown tools, malformed operations), which compile to
failing streams rather than being skipped. -/
theorem claim_C10 (tools : ToolRegistry) (p : IRPipeline) (cp : CompiledPipeline)
    (h : compile tools p = .ok cp) :
    (∀ n, n ∈ get_step_names cp ↔ n ∈ p.steps.map (fun s => s.name)) ∧
    (get_step_names cp).Nodup ∧
    (∀ n, (get_step cp n).isSome ↔ n ∈ p.steps.map (fun s => s.name)) := by
  unfold compile at h
  cases htopo : topological_sort p.steps with
  | error e =>
    rw [htopo] at h
    exact absurd h (by simp)
  | ok sorted =>
    rw [htopo] at h
    dsimp only at h
    cases hloop : compile_steps_loop sorted [] (initContext tools) with
    | error e =>
      rw [hloop] at h
      exact absurd h (by simp)
    | ok pr =>
      rw [hloop] at h
      obtain ⟨obs, ctx2⟩ := pr
      dsimp only at h
      have hcp : cp = ⟨p, obs, ctx2⟩ := by
        injection h with h2
        exact h2.symm
      obtain ⟨hndr, hinv3, _, hcomp⟩ := topological_sort_ok p.steps sorted htopo
      have hkeys := compile_steps_loop_keys sorted [] (initContext tools) obs ctx2
        (by simp) hndr hloop
      rw [List.map_nil, List.nil_append] at hkeys
      have hnames : get_step_names cp = sorted.map (fun s => s.name) := by
        rw [hcp]
        exact hkeys
      have hmemiff : ∀ n, n ∈ sorted.map (fun s => s.name) ↔
          n ∈ p.steps.map (fun s => s.name) := by
        intro n
        constructor
        · intro hn
          rw [List.mem_map] at hn
          obtain ⟨s, hs, hsn⟩ := hn
          have := step_map_get_eq p.steps s.name s (hinv3 s hs)
          exact hsn ▸ List.mem_map_of_mem (fun st => st.name) this.1
        · intro hn
          rw [List.mem_map] at hn
          obtain ⟨s, hs, hsn⟩ := hn
          have := hcomp s.name (step_map_get_isSome_of_mem p.steps s hs)
          exact hsn ▸ this
      refine ⟨?_, ?_, ?_⟩
      · intro n
        rw [hnames]
        exact hmemiff n
      · rw [hnames]
        exact hndr
      · intro n
        rw [show get_step cp n = lookupD cp.step_observables n from rfl,
          lookupD_isSome_iff]
        rw [show cp.step_observables.map (fun q => q.1) = get_step_names cp from rfl,
          hnames]
        exact hmemiff n

/-- A one-step pipeline whose step is a plain literal. -/
def pGood : IRPipeline :=
  ⟨none, [], [⟨("s"), .literal ("l") .number (.vInt 7), []⟩], [], none⟩

/-- The value `compile` produces for `pGood` with an empty registry. -/
def cpGood : CompiledPipeline :=
  ⟨pGood, [(("s"), justS (.vInt 7))], ⟨[], [(("s"), justS (.vInt 7))], []⟩⟩

theorem compile_pGood : compile ([] : ToolRegistry) pGood = .ok cpGood := by
  simp [compile, topological_sort, visit_deps, visit, step_map_get, List.find?,
    compile_steps_loop, compile_expression, dictInsert, lookupD, initContext,
    pGood, cpGood]

theorem claim_C10_witness : (get_step cpGood ("s")).isSome := by
  have h := claim_C10 ([] : ToolRegistry) pGood cpGood compile_pGood
  exact (h.2.2 ("s")).mpr (by simp [pGood])

/-! ## Claim C4 -/

/-- The only exceptions `_compile_operation` itself raises: indexing
`inputs[0]` on an empty list in the `retry` and `timeout` branches. -/
theorem compile_operation_error_char (op : OperatorType) (l : List Obs) (e : String)
    (h : compile_operation op l = .error e) :
    (op = .retry ∨ op = .timeout) ∧ l = [] ∧ e = ("list index out of range") := by
  cases op <;> rcases l with _ | ⟨a, _ | ⟨b, _ | ⟨c, rest⟩⟩⟩ <;>
    simp [compile_operation] at h <;>
    simp [h]

/-- A pipeline with a malformed operation: `map` applied to one input. -/
def pMal : IRPipeline :=
  ⟨none, [],
   [⟨("s"), .operation ("o") .map [.literal ("l") .number (.vInt 5)] .number, []⟩],
   [], none⟩

/-- What `compile` produces for it: a complete compiled pipeline whose step
stream fails with the malformed-operation message at subscription time. -/
def cpMal : CompiledPipeline :=
  ⟨pMal, [(("s"), throwS ("map requires exactly 2 inputs"))],
   ⟨[], [(("s"), throwS ("map requires exactly 2 inputs"))], []⟩⟩

/-- Claim C4, as stated, is false: a pipeline containing a malformed
operation (wrong arity) is compiled successfully — compilation is not
aborted, and a complete pipeline is returned whose offending step is an
immediately-failing stream. -/
theorem claim_C4_counterexample :
    compile ([] : ToolRegistry) pMal = .ok cpMal := by
  simp [compile, topological_sort, visit_deps, visit, step_map_get, List.find?,
    compile_steps_loop, compile_expression, compile_expr_list, compile_operation,
    dictInsert, lookupD, initContext, pMal, cpMal]

/-- Claim C4 (amended): a circular dependency aborts compilation with the
circular-dependency error, and a `retry`/`timeout` operation with an empty
input list aborts it with the Python `IndexError` (the only exception the
operation compiler raises); every other compile-time defect — wrong arity
for `map`-style operators, unrecognised operators, unresolved variable
references — does not abort compilation but compiles to an
immediately-failing stream, and a complete pipeline is returned (concretely,
the malformed pipeline `pMal` compiles successfully). -/
theorem claim_C4 :
    (∀ (tools : ToolRegistry) (p : IRPipeline), hasCycle p.steps →
      ∃ n, compile tools p = .error ("Circular dependency detected: " ++ n)) ∧
    (∀ (op : OperatorType) (l : List Obs) (e : String),
      compile_operation op l = .error e →
        (op = .retry ∨ op = .timeout) ∧ l = [] ∧ e = ("list index out of range")) ∧
    (∀ (context : RuntimeContext) (i n : String) (t : IRType),
      lookupD context.vars n = none → lookupD context.steps n = none →
      compile_expression (.var i n t) context =
        .ok (throwS ("Unknown variable: " ++ n))) ∧
    (∀ l : List Obs, l.length ≠ 2 →
      compile_operation .map l = .ok (throwS ("map requires exactly 2 inputs"))) ∧
    compile_operation .retry [] = .error ("list index out of range") ∧
    compile ([] : ToolRegistry) pMal = .ok cpMal := by
  refine ⟨?_, compile_operation_error_char, ?_, ?_, rfl, ?_⟩
  · intro tools p hc
    obtain ⟨e, he⟩ := (topological_sort_error_iff p.steps).mpr hc
    obtain ⟨⟨n, hn⟩, _⟩ := topological_sort_error p.steps e he
    refine ⟨n, ?_⟩
    unfold compile
    rw [he, hn]
  · intro context i n t h1 h2
    simp [compile_expression, h1, h2, Option.orElse]
  · intro l hl
    match l with
    | [] => rfl
    | [a] => rfl
    | [a, b] => exact absurd rfl hl
    | a :: b :: c :: rest => rfl
  · simp [compile, topological_sort, visit_deps, visit, step_map_get, List.find?,
      compile_steps_loop, compile_expression, compile_expr_list, compile_operation,
      dictInsert, lookupD, initContext, pMal, cpMal]

/-- Two steps depending on each other. -/
def pCyc : IRPipeline :=
  ⟨none, [],
   [⟨("a"), .literal ("l1") .number (.vInt 0), [("b")]⟩,
    ⟨("b"), .literal ("l2") .number (.vInt 0), [("a")]⟩],
   [], none⟩

theorem pCyc_hasCycle : hasCycle pCyc.steps := by
  refine ⟨("a"), [("b")], ?_, ?_⟩
  · exact ⟨⟨("a"), .literal ("l1") .number (.vInt 0), [("b")]⟩, rfl, by simp⟩
  · exact ⟨⟨("b"), .literal ("l2") .number (.vInt 0), [("a")]⟩, rfl, by simp⟩

theorem claim_C4_witness :
    compile ([] : ToolRegistry) pCyc = .error ("Circular dependency detected: " ++ ("a")) := by
  obtain ⟨n, hn⟩ := claim_C4.1 ([] : ToolRegistry) pCyc pCyc_hasCycle
  simp [compile, topological_sort, visit_deps, visit, step_map_get, List.find?,
    initContext, pCyc]

/-! ## Claim C1 -/

/-- A pipeline whose only step is a `retry` operation with an empty input
list: its dependency graph is trivially acyclic, yet compilation raises the
Python `IndexError` from `inputs[0]`, so "for every acyclic pipeline,
compiling it succeeds" fails on this input. -/
def pRetry0 : IRPipeline :=
  ⟨none, [], [⟨("s"), .operation ("o") .retry [] .any, []⟩], [], none⟩

/-- Claim C1, as stated, is false on the success side: an acyclic pipeline
can still fail to compile, because a `retry` (or `timeout`) operation with an
empty input list raises an `IndexError` during expression compilation. -/
theorem claim_C1_counterexample :
    ¬ hasCycle pRetry0.steps ∧
    compile ([] : ToolRegistry) pRetry0 = .error ("list index out of range") := by
  constructor
  · apply no_deps_no_cycle
    intro s hs
    simp [pRetry0] at hs
    rw [hs]
  · simp [compile, topological_sort, visit_deps, visit, step_map_get, List.find?,
      compile_steps_loop, compile_expression, compile_expr_list, compile_operation,
      initContext, pRetry0]

/-- Claim C1 (amended): for every pipeline with unique step names whose
dependency graph is acyclic and whose step expressions all compile without
raising (in particular no `retry`/`timeout` with an empty input list),
compilation succeeds and the dependency resolver returns an ordering of the
steps — a permutation of the declared steps in which every resolvable
dependency of a step appears strictly earlier; for every pipeline with a
dependency cycle, compilation fails with the circular-dependency error and
no compiled pipeline is produced. -/
theorem claim_C1 (tools : ToolRegistry) (p : IRPipeline)
    (hnd : (p.steps.map (fun s => s.name)).Nodup) :
    (¬ hasCycle p.steps →
      (∀ s ∈ p.steps, ∀ c : RuntimeContext, (compile_expression s.expression c).isOk) →
      ∃ r, topological_sort p.steps = .ok r ∧ r.Perm p.steps ∧ Ordered p.steps r ∧
        (compile tools p).isOk) ∧
    (hasCycle p.steps →
      ∃ n, compile tools p = .error ("Circular dependency detected: " ++ n)) := by
  constructor
  · intro hacyc hexpr
    cases htopo : topological_sort p.steps with
    | error e =>
      exact absurd (topological_sort_error p.steps e htopo).2 hacyc
    | ok r =>
      have hperm := topological_sort_perm p.steps r hnd htopo
      have hord := (topological_sort_ok p.steps r htopo).2.2.1
      refine ⟨r, rfl, hperm, hord, ?_⟩
      unfold compile
      rw [htopo]
      dsimp only
      have hloopok := compile_steps_loop_ok r [] (initContext tools)
        (fun s hs c => hexpr s (hperm.mem_iff.mp hs) c)
      cases hloop : compile_steps_loop r [] (initContext tools) with
      | error e =>
        rw [hloop] at hloopok
        exact absurd hloopok (by simp [Except.isOk, Except.toBool])
      | ok pr =>
        obtain ⟨obs, ctx2⟩ := pr
        rfl
  · intro hc
    obtain ⟨e, he⟩ := (topological_sort_error_iff p.steps).mpr hc
    obtain ⟨⟨n, hn⟩, _⟩ := topological_sort_error p.steps e he
    refine ⟨n, ?_⟩
    unfold compile
    rw [he, hn]

theorem claim_C1_witness : (compile ([] : ToolRegistry) pGood).isOk := by
  have h := (claim_C1 ([] : ToolRegistry) pGood (by simp [pGood])).1
    (no_deps_no_cycle pGood.steps (by
      intro s hs
      simp [pGood] at hs
      rw [hs]))
    (by
      intro s hs c
      simp [pGood] at hs
      rw [hs]
      rfl)
  obtain ⟨r, _, _, _, hok⟩ := h
  exact hok

end AgentDsl
